import Mathlib

/-!
Verification of the commit-history aggregation core of the `data_analysis`
repository (files `git_analysis.py` and `git_analysis_file.py`).

The Python code is embedded shallowly:

* A commit record (one element of the persisted `git_history.json` array) is
  the structure `Commit`.  Its `date` field holds the result of
  `pd.to_datetime(raw, utc=True, errors="coerce")`: `none` models `NaT`
  (an unparseable timestamp string) and `some d` models a successfully
  parsed, UTC-normalized timestamp, represented at day granularity as an
  integer day number.  Day numbers are chosen relative to a Monday epoch,
  so `d % 7 = 0` means `d` is a Monday and `d % 7 = 6` means Sunday; weekly
  bucketing only ever inspects the calendar date of a timestamp, so day
  granularity loses nothing.

* Python dictionaries produced by the aggregations are embedded as their
  lookup functions `String → Option V` (`none` = key absent).  Python's
  `dict` equality compares key-value sets, which is exactly extensional
  equality of these lookup functions.

* `pandas.resample("W").size()` on a UTC `DatetimeIndex` uses weekly bins
  anchored `W-SUN` with `closed="right"`, `label="right"` and bin edges
  widened to whole days: every bin covers a Monday-through-Sunday calendar
  week, is labelled by its Sunday (the week END date), and the resampled
  series contains one entry for every week from the bin of the earliest
  index value to the bin of the latest, including interior weeks that
  contain no data point (their size is 0).  `weeklyOf` reproduces exactly
  this.

* `analyze_commit_history` builds `pd.DataFrame([...])` from the commit
  list; when the list is empty the frame has no columns at all, and the
  subsequent `df["date"]` access raises `KeyError: 'date'`.  This is
  modelled by `bucketByWeek` returning `Except.error "KeyError: date"` on
  the empty list.
-/

/-- Author object of a commit record (`{"name": ..., "email": ...}`). -/
structure Author where
  name : String
  email : String
deriving DecidableEq, Repr

/-- One entry of a commit's `file_changes` array. -/
structure FileChange where
  filename : String
  lines_added : Nat
  lines_deleted : Nat
deriving DecidableEq, Repr

/-- One commit record of the persisted snapshot, with the timestamp already
passed through `pd.to_datetime(..., utc=True, errors="coerce")`: `none`
models an unparseable date (`NaT`), `some d` a UTC day number (Monday
epoch: `d % 7 = 0` iff `d` is a Monday). -/
structure Commit where
  commit_hash : String
  author : Author
  date : Option Int
  message : String
  file_changes : List FileChange
deriving DecidableEq, Repr

/-- The parsed dates that survive `dropna(subset=["date"])`, in order. -/
def validDates (cs : List Commit) : List Int :=
  cs.filterMap (fun c => c.date)

/-- Monday of the calendar week containing day `d` (the ISO week start). -/
def weekStart (d : Int) : Int := d - d % 7

/-- Sunday of the calendar week containing day `d`: the label pandas
`resample("W")` (= `W-SUN`, right-labelled) gives to `d`'s bin. -/
def weekEnd (d : Int) : Int := weekStart d + 6

/-- Minimum of `a` and the elements of a list (pandas index minimum). -/
def listMin (a : Int) : List Int → Int
  | [] => a
  | b :: t => listMin (min a b) t

/-- Maximum of `a` and the elements of a list (pandas index maximum). -/
def listMax (a : Int) : List Int → Int
  | [] => a
  | b :: t => listMax (max a b) t

/-- The bin labels `resample("W")` generates for data spanning day range
with week-end labels `a` to `b`: the Sundays `a, a+7, ..., b`. -/
def weekKeys (a b : Int) : List Int :=
  (List.range (((b - a) / 7).toNat + 1)).map (fun (i : Nat) => a + 7 * (i : Int))

/-- `resample("W").size()` over a list of (valid) day numbers: one entry
per week from the earliest date's week to the latest date's week, counting
the dates falling in each Monday-to-Sunday week; empty input gives the
empty series. -/
def weeklyOf (ds : List Int) : List (Int × Nat) :=
  match ds with
  | [] => []
  | d :: t =>
    (weekKeys (weekEnd (listMin d t)) (weekEnd (listMax d t))).map
      (fun k => (k, (d :: t).countP (fun x => weekEnd x == k)))

/-- `analyze_commit_history` restricted to its aggregation result: the
weekly-counts mapping.  On the empty commit list `pd.DataFrame([])` has no
columns, so the `df_commits["date"]` access raises `KeyError`; otherwise
rows with unparseable dates are dropped and the rest are resampled
weekly. -/
def bucketByWeek (cs : List Commit) : Except String (List (Int × Nat)) :=
  if cs.isEmpty then Except.error "KeyError: date"
  else Except.ok (weeklyOf (validDates cs))

theorem listMin_le_init (a : Int) (l : List Int) : listMin a l ≤ a := by
  induction l generalizing a with
  | nil => simp [listMin]
  | cons b t ih => exact le_trans (ih (min a b)) (min_le_left a b)

theorem listMin_le_mem (a : Int) (l : List Int) (x : Int) (hx : x ∈ l) :
    listMin a l ≤ x := by
  induction l generalizing a with
  | nil => cases hx
  | cons b t ih =>
    rcases List.mem_cons.mp hx with h | h
    · subst h
      exact le_trans (listMin_le_init (min a x) t) (min_le_right a x)
    · exact ih (min a b) h

theorem le_listMax_init (a : Int) (l : List Int) : a ≤ listMax a l := by
  induction l generalizing a with
  | nil => simp [listMax]
  | cons b t ih => exact le_trans (le_max_left a b) (ih (max a b))

theorem mem_le_listMax (a : Int) (l : List Int) (x : Int) (hx : x ∈ l) :
    x ≤ listMax a l := by
  induction l generalizing a with
  | nil => cases hx
  | cons b t ih =>
    rcases List.mem_cons.mp hx with h | h
    · subst h
      exact le_trans (le_max_right a x) (le_listMax_init (max a x) t)
    · exact ih (max a b) h

theorem listMin_le_all (d : Int) (t : List Int) (y : Int) (hy : y ∈ d :: t) :
    listMin d t ≤ y := by
  rcases List.mem_cons.mp hy with h | h
  · exact h ▸ listMin_le_init d t
  · exact listMin_le_mem d t y h

theorem all_le_listMax (d : Int) (t : List Int) (y : Int) (hy : y ∈ d :: t) :
    y ≤ listMax d t := by
  rcases List.mem_cons.mp hy with h | h
  · exact h ▸ le_listMax_init d t
  · exact mem_le_listMax d t y h

theorem weekEnd_mod (d : Int) : weekEnd d % 7 = 6 := by
  unfold weekEnd weekStart
  omega

theorem weekEnd_mono (d e : Int) (h : d ≤ e) : weekEnd d ≤ weekEnd e := by
  unfold weekEnd weekStart at *
  omega

theorem mem_weekKeys (a b k : Int) (ha : a % 7 = 6) (hk : k % 7 = 6)
    (h1 : a ≤ k) (h2 : k ≤ b) : k ∈ weekKeys a b := by
  have hdiv : 7 * ((k - a) / 7) = k - a := by omega
  have hlt : ((k - a) / 7).toNat < ((b - a) / 7).toNat + 1 := by omega
  have hval : a + 7 * ((((k - a) / 7).toNat : Nat) : Int) = k := by omega
  unfold weekKeys
  apply List.mem_map.mpr
  exact ⟨((k - a) / 7).toNat, List.mem_range.mpr hlt, hval⟩

theorem weekKeys_mod (a b k : Int) (ha : a % 7 = 6) (hk : k ∈ weekKeys a b) :
    k % 7 = 6 := by
  unfold weekKeys at hk
  rcases List.mem_map.mp hk with ⟨i, _, rfl⟩
  omega

theorem weekKeys_nodup (a b : Int) : (weekKeys a b).Nodup := by
  unfold weekKeys
  have hinj : Function.Injective (fun i : Nat => a + 7 * (i : Int)) := by
    intro i j h
    simp only at h
    omega
  exact List.Nodup.map hinj (List.nodup_range _)

/-- Count of occurrences of the value `k` in a list of integers. -/
def countVal (ms : List Int) (k : Int) : Nat :=
  ms.countP (fun x => x == k)

theorem countVal_nil (k : Int) : countVal [] k = 0 := rfl

theorem countVal_cons (m : Int) (t : List Int) (k : Int) :
    countVal (m :: t) k = countVal t k + (if m = k then 1 else 0) := by
  simp [countVal, List.countP_cons]

theorem countP_ext (l : List Int) (p q : Int → Bool) (h : ∀ x, p x = q x) :
    l.countP p = l.countP q := by
  induction l with
  | nil => rfl
  | cons a t ih => simp [List.countP_cons, h a, ih]

theorem countP_eq_countVal_map (l : List Int) (f : Int → Int) (k : Int) :
    l.countP (fun x => f x == k) = countVal (l.map f) k := by
  induction l with
  | nil => rfl
  | cons a t ih => simp [countVal, List.countP_cons, ih, countVal]

theorem sum_map_add (l : List Int) (f g : Int → Nat) :
    (l.map (fun k => f k + g k)).sum = (l.map f).sum + (l.map g).sum := by
  induction l with
  | nil => rfl
  | cons a t ih =>
    simp only [List.map_cons, List.sum_cons, ih]
    omega

theorem sum_ite_notmem (l : List Int) (c : Int) (hc : c ∉ l) :
    (l.map (fun k => if c = k then (1 : Nat) else 0)).sum = 0 := by
  induction l with
  | nil => rfl
  | cons a t ih =>
    have hca : c ≠ a := fun h => hc (h ▸ List.mem_cons_self a t)
    have hct : c ∉ t := fun h => hc (List.mem_cons_of_mem a h)
    simp [hca, ih hct]

theorem sum_ite_nodup (l : List Int) (c : Int) (hnd : l.Nodup) (hc : c ∈ l) :
    (l.map (fun k => if c = k then (1 : Nat) else 0)).sum = 1 := by
  induction l with
  | nil => cases hc
  | cons a t ih =>
    rcases List.mem_cons.mp hc with h | h
    · subst h
      have hct : c ∉ t := (List.nodup_cons.mp hnd).1
      simp [sum_ite_notmem t c hct]
    · have hca : c ≠ a := by
        intro hh
        exact (List.nodup_cons.mp hnd).1 (hh ▸ h)
      simp [hca, ih (List.nodup_cons.mp hnd).2 h]

theorem sum_counts (ms ks : List Int) (hnd : ks.Nodup)
    (hmem : ∀ x ∈ ms, x ∈ ks) :
    (ks.map (fun k => countVal ms k)).sum = ms.length := by
  induction ms with
  | nil => simp [countVal_nil]
  | cons m t ih =>
    have hmem2 : ∀ x ∈ t, x ∈ ks := fun x hx => hmem x (List.mem_cons_of_mem m hx)
    calc (ks.map (fun k => countVal (m :: t) k)).sum
        = (ks.map (fun k => countVal t k + (if m = k then 1 else 0))).sum := by
          simp only [countVal_cons]
      _ = (ks.map (fun k => countVal t k)).sum
          + (ks.map (fun k => if m = k then 1 else 0)).sum :=
          sum_map_add ks _ _
      _ = t.length + 1 := by
          rw [ih hmem2, sum_ite_nodup ks m hnd (hmem m (List.mem_cons_self m t))]
      _ = (m :: t).length := by simp

theorem weeklyOf_sum (ds : List Int) :
    ((weeklyOf ds).map (fun p => p.2)).sum = ds.length := by
  match ds with
  | [] => rfl
  | d :: t =>
    unfold weeklyOf
    rw [List.map_map]
    have hcomp :
        ((fun p : Int × Nat => p.2) ∘ fun k => (k, (d :: t).countP (fun x => weekEnd x == k)))
        = fun k => countVal ((d :: t).map weekEnd) k := by
      funext k
      exact countP_eq_countVal_map (d :: t) weekEnd k
    rw [hcomp]
    have hlen : ((d :: t).map weekEnd).length = (d :: t).length := List.length_map _ _
    rw [← hlen]
    apply sum_counts
    · exact weekKeys_nodup _ _
    · intro x hx
      rcases List.mem_map.mp hx with ⟨y, hy, rfl⟩
      apply mem_weekKeys
      · exact weekEnd_mod _
      · exact weekEnd_mod _
      · exact weekEnd_mono _ _ (listMin_le_all d t y hy)
      · exact weekEnd_mono _ _ (all_le_listMax d t y hy)

theorem validDates_length (cs : List Commit) :
    (validDates cs).length = cs.countP (fun c => c.date.isSome) := by
  induction cs with
  | nil => rfl
  | cons c t ih =>
    unfold validDates at ih ⊢
    cases hd : c.date with
    | none => simp [List.filterMap_cons, hd, List.countP_cons, ih]
    | some d => simp [List.filterMap_cons, hd, List.countP_cons, ih]

/-- The empty dictionary (`defaultdict` before any write), as a lookup
function. -/
def emptyChurn : String → Option (Nat × Nat) := fun _ => none

/-- Effect of one `file_change` on the churn dictionary:
`file_churn[fc["filename"]]["added"] += fc["lines_added"]` followed by the
same for `"deleted"` (`defaultdict` inserts `(0, 0)` on first access, so a
fresh key ends up at exactly `(lines_added, lines_deleted)`). -/
def churnBump (m : String → Option (Nat × Nat)) (fc : FileChange) :
    String → Option (Nat × Nat) :=
  fun k =>
    if k = fc.filename then
      match m fc.filename with
      | none => some (fc.lines_added, fc.lines_deleted)
      | some ad => some (ad.1 + fc.lines_added, ad.2 + fc.lines_deleted)
    else m k

/-- The inner loop of `analyze_code_churn` for one commit. -/
def churnStep (m : String → Option (Nat × Nat)) (c : Commit) :
    String → Option (Nat × Nat) :=
  c.file_changes.foldl churnBump m

/-- `analyze_code_churn` restricted to its aggregation result: the per-file
churn dictionary, as a lookup function. -/
def computeChurn (cs : List Commit) : String → Option (Nat × Nat) :=
  cs.foldl churnStep emptyChurn

/-- All `file_changes` entries of a commit list, in processing order. -/
def changesOf : List Commit → List FileChange
  | [] => []
  | c :: t => c.file_changes ++ changesOf t

/-- Whether some entry of a change list names the file `p`. -/
def touches (fcs : List FileChange) (p : String) : Bool :=
  fcs.any (fun fc => fc.filename == p)

/-- Total `lines_added` attributed to file `p` by a change list. -/
def addedTotal (fcs : List FileChange) (p : String) : Nat :=
  ((fcs.filter (fun fc => fc.filename == p)).map (fun fc => fc.lines_added)).sum

/-- Total `lines_deleted` attributed to file `p` by a change list. -/
def deletedTotal (fcs : List FileChange) (p : String) : Nat :=
  ((fcs.filter (fun fc => fc.filename == p)).map (fun fc => fc.lines_deleted)).sum


theorem touches_cons (fc : FileChange) (t : List FileChange) (p : String) :
    touches (fc :: t) p = ((fc.filename == p) || touches t p) := by
  simp [touches, List.any_cons]

theorem touches_append (l1 l2 : List FileChange) (p : String) :
    touches (l1 ++ l2) p = (touches l1 p || touches l2 p) := by
  simp [touches, List.any_append]

theorem addedTotal_append (l1 l2 : List FileChange) (p : String) :
    addedTotal (l1 ++ l2) p = addedTotal l1 p + addedTotal l2 p := by
  simp [addedTotal, List.filter_append, List.map_append, List.sum_append]

theorem deletedTotal_append (l1 l2 : List FileChange) (p : String) :
    deletedTotal (l1 ++ l2) p = deletedTotal l1 p + deletedTotal l2 p := by
  simp [deletedTotal, List.filter_append, List.map_append, List.sum_append]

theorem addedTotal_zero (fcs : List FileChange) (p : String)
    (h : touches fcs p = false) : addedTotal fcs p = 0 := by
  induction fcs with
  | nil => rfl
  | cons fc t ih =>
    rw [touches_cons] at h
    rcases Bool.or_eq_false_iff.mp h with ⟨h1, h2⟩
    have h3 := ih h2
    rw [addedTotal] at h3 ⊢
    rw [List.filter_cons, h1]
    simpa using h3

theorem deletedTotal_zero (fcs : List FileChange) (p : String)
    (h : touches fcs p = false) : deletedTotal fcs p = 0 := by
  induction fcs with
  | nil => rfl
  | cons fc t ih =>
    rw [touches_cons] at h
    rcases Bool.or_eq_false_iff.mp h with ⟨h1, h2⟩
    have h3 := ih h2
    rw [deletedTotal] at h3 ⊢
    rw [List.filter_cons, h1]
    simpa using h3

theorem churn_fold_changes (fcs : List FileChange)
    (m : String → Option (Nat × Nat)) (p : String) :
    (fcs.foldl churnBump m) p =
      match m p with
      | none =>
        if touches fcs p then some (addedTotal fcs p, deletedTotal fcs p) else none
      | some ad => some (ad.1 + addedTotal fcs p, ad.2 + deletedTotal fcs p) := by
  induction fcs generalizing m with
  | nil =>
    rw [List.foldl_nil]
    cases hmp : m p with
    | none => simp [touches, addedTotal, deletedTotal]
    | some ad => simp [touches, addedTotal, deletedTotal]
  | cons fc t ih =>
    rw [List.foldl_cons, ih (churnBump m fc)]
    have hat : addedTotal (fc :: t) p =
        (if (fc.filename == p) = true then fc.lines_added else 0) + addedTotal t p := by
      cases hb : (fc.filename == p) <;>
        simp [addedTotal, List.filter_cons, hb]
    have hdt : deletedTotal (fc :: t) p =
        (if (fc.filename == p) = true then fc.lines_deleted else 0) + deletedTotal t p := by
      cases hb : (fc.filename == p) <;>
        simp [deletedTotal, List.filter_cons, hb]
    rw [touches_cons, hat, hdt]
    cases hb : (fc.filename == p) with
    | false =>
      have hp : ¬ (p = fc.filename) := by
        intro h
        rw [h] at hb
        simp at hb
      have hm : churnBump m fc p = m p := by
        simp [churnBump, hp]
      rw [hm]
      cases hmp : m p with
      | none => simp
      | some ad => simp
    | true =>
      have hp : p = fc.filename := (beq_iff_eq.mp hb).symm
      have hm : churnBump m fc p =
          match m p with
          | none => some (fc.lines_added, fc.lines_deleted)
          | some ad => some (ad.1 + fc.lines_added, ad.2 + fc.lines_deleted) := by
        show (if p = fc.filename then
            match m fc.filename with
            | none => some (fc.lines_added, fc.lines_deleted)
            | some ad => some (ad.1 + fc.lines_added, ad.2 + fc.lines_deleted)
          else m p) = _
        rw [if_pos hp, ← hp]
      rw [hm]
      cases hmp : m p with
      | none => simp
      | some ad => simp [Nat.add_assoc]

theorem churn_fold_commits (cs : List Commit)
    (m : String → Option (Nat × Nat)) (p : String) :
    (cs.foldl churnStep m) p =
      match m p with
      | none =>
        if touches (changesOf cs) p then
          some (addedTotal (changesOf cs) p, deletedTotal (changesOf cs) p)
        else none
      | some ad => some (ad.1 + addedTotal (changesOf cs) p,
          ad.2 + deletedTotal (changesOf cs) p) := by
  induction cs generalizing m with
  | nil =>
    rw [List.foldl_nil]
    cases hmp : m p with
    | none => simp [changesOf, touches, addedTotal, deletedTotal]
    | some ad => simp [changesOf, touches, addedTotal, deletedTotal]
  | cons c t ih =>
    rw [List.foldl_cons, ih (churnStep m c)]
    have hstep : (churnStep m c) p =
        match m p with
        | none =>
          if touches c.file_changes p then
            some (addedTotal c.file_changes p, deletedTotal c.file_changes p)
          else none
        | some ad => some (ad.1 + addedTotal c.file_changes p,
            ad.2 + deletedTotal c.file_changes p) :=
      churn_fold_changes c.file_changes m p
    rw [hstep]
    have hch : changesOf (c :: t) = c.file_changes ++ changesOf t := rfl
    rw [hch, touches_append, addedTotal_append, deletedTotal_append]
    cases hmp : m p with
    | none =>
      cases h1 : touches c.file_changes p with
      | true =>
        cases h2 : touches (changesOf t) p with
        | true => simp
        | false =>
          simp [addedTotal_zero _ _ h2, deletedTotal_zero _ _ h2]
      | false =>
        simp [addedTotal_zero _ _ h1, deletedTotal_zero _ _ h1]
    | some ad =>
      simp [Nat.add_assoc]

/-- Per-file lookup of the churn dictionary, as sums over all matching
`file_changes` entries of the input. -/
theorem computeChurn_lookup (cs : List Commit) (p : String) :
    computeChurn cs p =
      if touches (changesOf cs) p then
        some (addedTotal (changesOf cs) p, deletedTotal (changesOf cs) p)
      else none := by
  unfold computeChurn
  rw [churn_fold_commits cs emptyChurn p]
  rfl

/-- Whether the character list `needle` occurs at the start of `hay`. -/
def startsWithChars : List Char → List Char → Bool
  | [], _ => true
  | _ :: _, [] => false
  | a :: as, b :: bs => a == b && startsWithChars as bs

/-- Whether the character list `needle` occurs contiguously anywhere in
`hay` (Python's `needle in hay` on strings). -/
def hasSubstrChars (needle : List Char) : List Char → Bool
  | [] => needle.isEmpty
  | b :: t => startsWithChars needle (b :: t) || hasSubstrChars needle t

/-- The bug-fix heuristic `"fix" in commit["message"].lower()`:
`str.lower` lowercases character-wise, embedded as `Char.toLower` over the
message's characters. -/
def containsFix (msg : String) : Bool :=
  hasSubstrChars "fix".toList (msg.toList.map Char.toLower)

/-- Effect of one `file_change` of a bug-fix commit on the bug-count
dictionary: `bug_fixes[fc["filename"]] += 1` on a `defaultdict(int)`. -/
def bugBump (m : String → Option Nat) (fc : FileChange) : String → Option Nat :=
  fun k => if k = fc.filename then some ((m fc.filename).getD 0 + 1) else m k

/-- The per-commit body of `analyze_bug_prone_files`: the files of a commit
are counted only when the message contains `"fix"` case-insensitively. -/
def bugStep (m : String → Option Nat) (c : Commit) : String → Option Nat :=
  if containsFix c.message then c.file_changes.foldl bugBump m else m

/-- `analyze_bug_prone_files` restricted to its aggregation result: the
per-file bug-fix-mention dictionary, as a lookup function. -/
def computeBugMentions (cs : List Commit) : String → Option Nat :=
  cs.foldl bugStep (fun _ => none)

/-- Number of `file_changes` entries of a change list naming file `p`. -/
def entryCount (fcs : List FileChange) (p : String) : Nat :=
  (fcs.filter (fun fc => fc.filename == p)).length

/-- Contribution of one commit to file `p`'s bug count: one per matching
`file_changes` entry, and only for `"fix"`-message commits. -/
def fixCount (c : Commit) (p : String) : Nat :=
  if containsFix c.message then entryCount c.file_changes p else 0

/-- Whether some `"fix"`-message commit of the list has a `file_changes`
entry naming `p` (exactly when `p` is a key of the bug dictionary). -/
def bugTouched (cs : List Commit) (p : String) : Bool :=
  cs.any (fun c => containsFix c.message && touches c.file_changes p)

/-- Total bug count of file `p` over a commit list. -/
def bugTotal (cs : List Commit) (p : String) : Nat :=
  (cs.map (fun c => fixCount c p)).sum

theorem entryCount_zero (fcs : List FileChange) (p : String)
    (h : touches fcs p = false) : entryCount fcs p = 0 := by
  induction fcs with
  | nil => rfl
  | cons fc t ih =>
    rw [touches_cons] at h
    rcases Bool.or_eq_false_iff.mp h with ⟨h1, h2⟩
    have h3 := ih h2
    rw [entryCount] at h3 ⊢
    rw [List.filter_cons, h1]
    simpa using h3

theorem bug_fold_changes (fcs : List FileChange)
    (m : String → Option Nat) (p : String) :
    (fcs.foldl bugBump m) p =
      match m p with
      | none => if touches fcs p then some (entryCount fcs p) else none
      | some n => some (n + entryCount fcs p) := by
  induction fcs generalizing m with
  | nil =>
    rw [List.foldl_nil]
    cases hmp : m p with
    | none => simp [touches, entryCount]
    | some n => simp [touches, entryCount]
  | cons fc t ih =>
    rw [List.foldl_cons, ih (bugBump m fc)]
    have hec : entryCount (fc :: t) p =
        (if (fc.filename == p) = true then 1 else 0) + entryCount t p := by
      cases hb : (fc.filename == p) <;>
        simp [entryCount, List.filter_cons, hb, Nat.add_comm]
    rw [touches_cons, hec]
    cases hb : (fc.filename == p) with
    | false =>
      have hp : ¬ (p = fc.filename) := by
        intro h
        rw [h] at hb
        simp at hb
      have hm : bugBump m fc p = m p := by
        simp [bugBump, hp]
      rw [hm]
      cases hmp : m p with
      | none => simp
      | some n => simp
    | true =>
      have hp : p = fc.filename := (beq_iff_eq.mp hb).symm
      have hm : bugBump m fc p = some ((m p).getD 0 + 1) := by
        show (if p = fc.filename then some ((m fc.filename).getD 0 + 1) else m p) = _
        rw [if_pos hp, ← hp]
      rw [hm]
      cases hmp : m p with
      | none => simp [Nat.add_comm]
      | some n => simp [Nat.add_assoc, Nat.add_comm, Nat.add_left_comm]

theorem bug_fold_commits (cs : List Commit)
    (m : String → Option Nat) (p : String) :
    (cs.foldl bugStep m) p =
      match m p with
      | none => if bugTouched cs p then some (bugTotal cs p) else none
      | some n => some (n + bugTotal cs p) := by
  induction cs generalizing m with
  | nil =>
    rw [List.foldl_nil]
    cases hmp : m p with
    | none => simp [bugTouched, bugTotal]
    | some n => simp [bugTouched, bugTotal]
  | cons c t ih =>
    rw [List.foldl_cons, ih (bugStep m c)]
    have htc : bugTouched (c :: t) p =
        ((containsFix c.message && touches c.file_changes p) || bugTouched t p) := by
      simp [bugTouched, List.any_cons]
    have htt : bugTotal (c :: t) p = fixCount c p + bugTotal t p := by
      simp [bugTotal, List.map_cons, List.sum_cons]
    rw [htc, htt]
    cases hfix : containsFix c.message with
    | false =>
      have hm : bugStep m c = m := by
        simp [bugStep, hfix]
      have hfc : fixCount c p = 0 := by
        simp [fixCount, hfix]
      rw [hm, hfc]
      cases hmp : m p with
      | none => simp
      | some n => simp
    | true =>
      have hm : (bugStep m c) p =
          match m p with
          | none => if touches c.file_changes p then some (entryCount c.file_changes p) else none
          | some n => some (n + entryCount c.file_changes p) := by
        rw [bugStep, if_pos hfix]
        exact bug_fold_changes c.file_changes m p
      have hfc : fixCount c p = entryCount c.file_changes p := by
        simp [fixCount, hfix]
      rw [hm, hfc]
      cases hmp : m p with
      | none =>
        cases h1 : touches c.file_changes p with
        | true =>
          cases h2 : bugTouched t p with
          | true => simp
          | false => simp
        | false =>
          simp [entryCount_zero _ _ h1]
      | some n => simp [Nat.add_assoc]

/-- Per-file lookup of the bug-mention dictionary: one count per matching
`file_changes` entry of each `"fix"`-message commit. -/
theorem computeBugMentions_lookup (cs : List Commit) (p : String) :
    computeBugMentions cs p =
      if bugTouched cs p then some (bugTotal cs p) else none := by
  unfold computeBugMentions
  rw [bug_fold_commits cs (fun _ => none) p]

/-- Effect of one commit on the contributor dictionary:
`author_commits[commit["author"]["name"]] += 1` on a `defaultdict(int)`. -/
def contribBump (m : String → Option Nat) (a : String) : String → Option Nat :=
  fun k => if k = a then some ((m a).getD 0 + 1) else m k

/-- The per-commit body of `analyze_top_contributors`. -/
def contribStep (m : String → Option Nat) (c : Commit) : String → Option Nat :=
  contribBump m c.author.name

/-- `analyze_top_contributors` restricted to its aggregation result: the
per-author commit-count dictionary, as a lookup function. -/
def computeContributors (cs : List Commit) : String → Option Nat :=
  cs.foldl contribStep (fun _ => none)

theorem contrib_fold (cs : List Commit) (m : String → Option Nat) (q : String) :
    (cs.foldl contribStep m) q =
      match m q with
      | none =>
        if cs.any (fun c => c.author.name == q) then
          some (cs.countP (fun c => c.author.name == q))
        else none
      | some n => some (n + cs.countP (fun c => c.author.name == q)) := by
  induction cs generalizing m with
  | nil =>
    rw [List.foldl_nil]
    cases hmp : m q with
    | none => simp
    | some n => simp
  | cons c t ih =>
    rw [List.foldl_cons, ih (contribStep m c)]
    have hcnt : (c :: t).countP (fun c => c.author.name == q) =
        (if (c.author.name == q) = true then 1 else 0) + t.countP (fun c => c.author.name == q) := by
      cases hb : (c.author.name == q) <;>
        simp [List.countP_cons, hb, Nat.add_comm]
    rw [List.any_cons, hcnt]
    cases hb : (c.author.name == q) with
    | false =>
      have hq : ¬ (q = c.author.name) := by
        intro h
        rw [h] at hb
        simp at hb
      have hm : (contribStep m c) q = m q := by
        simp [contribStep, contribBump, hq]
      rw [hm]
      cases hmp : m q with
      | none => simp
      | some n => simp
    | true =>
      have hq : q = c.author.name := (beq_iff_eq.mp hb).symm
      have hm : (contribStep m c) q = some ((m q).getD 0 + 1) := by
        show (if q = c.author.name then some ((m c.author.name).getD 0 + 1) else m q) = _
        rw [if_pos hq, ← hq]
      rw [hm]
      cases hmp : m q with
      | none => simp [Nat.add_comm]
      | some n => simp [Nat.add_assoc, Nat.add_comm, Nat.add_left_comm]

/-- Per-author lookup of the contributor dictionary: the number of commits
whose author display name is `q`. -/
theorem computeContributors_lookup (cs : List Commit) (q : String) :
    computeContributors cs q =
      if cs.any (fun c => c.author.name == q) then
        some (cs.countP (fun c => c.author.name == q))
      else none := by
  unfold computeContributors
  rw [contrib_fold cs (fun _ => none) q]

/-- The snapshot-merge step of `extract_git_history`: `existing_commits`
is the set of hashes already in the persisted file, every freshly parsed
commit whose hash is in that set is skipped (`continue`), and the result
written back is `new_commits + existing_data` (incoming-then-existing). -/
def mergeSnapshots (existing incoming : List Commit) : List Commit :=
  (incoming.filter
    (fun c => !(existing.any (fun e => e.commit_hash == c.commit_hash)))) ++ existing

/-- Modelled from the spec: the claim compares `mergeSnapshots([], inc)`
with `inc` "deduplicated by `id` with order preserved", i.e. keeping the
first record carrying each `commit_hash`.  (Worker over a seen-hash
accumulator.) -/
def specDedupAux (seen : List String) : List Commit → List Commit
  | [] => []
  | c :: t =>
    if c.commit_hash ∈ seen then specDedupAux seen t
    else c :: specDedupAux (c.commit_hash :: seen) t

/-- Modelled from the spec: deduplication by `id`, order preserved (first
occurrence of each hash wins). -/
def specDedupById (cs : List Commit) : List Commit :=
  specDedupAux [] cs

theorem specDedupAux_of_nodup (seen : List String) (cs : List Commit)
    (hseen : ∀ c ∈ cs, c.commit_hash ∉ seen)
    (hnd : (cs.map (fun c => c.commit_hash)).Nodup) :
    specDedupAux seen cs = cs := by
  induction cs generalizing seen with
  | nil => rfl
  | cons c t ih =>
    rw [specDedupAux]
    rw [if_neg (hseen c (List.mem_cons_self c t))]
    have hnd2 : (t.map (fun c => c.commit_hash)).Nodup :=
      (List.nodup_cons.mp hnd).2
    have hnotin : c.commit_hash ∉ t.map (fun c => c.commit_hash) :=
      (List.nodup_cons.mp hnd).1
    have hseen2 : ∀ x ∈ t, x.commit_hash ∉ c.commit_hash :: seen := by
      intro x hx
      intro hmem
      rcases List.mem_cons.mp hmem with h | h
      · exact hnotin (h ▸ List.mem_map_of_mem (fun c => c.commit_hash) hx)
      · exact hseen x (List.mem_cons_of_mem c hx) h
    rw [ih (c.commit_hash :: seen) hseen2 hnd2]

/-- Raw commit record as read from JSON, before any field access: `none`
on a field models a dictionary missing that key, so that the Python
subscript `commit["author"]` etc. raises `KeyError` exactly on `none`.
The `date` field carries the parse result as in `Commit`. -/
structure RawCommit where
  commit_hash : Option String
  author : Option Author
  date : Option (Option Int)
  message : Option String
  file_changes : Option (List FileChange)
deriving DecidableEq, Repr

/-- The loop of `analyze_top_contributors` over raw records: the subscript
`commit["author"]["name"]` raises `KeyError` when the `author` key is
missing, aborting the whole aggregation. -/
def contributorsRawAux (m : String → Option Nat) :
    List RawCommit → Except String (String → Option Nat)
  | [] => Except.ok m
  | c :: t =>
    match c.author with
    | none => Except.error "KeyError: author"
    | some a => contributorsRawAux (contribBump m a.name) t

/-- `analyze_top_contributors` over raw records. -/
def contributorsRaw (cs : List RawCommit) : Except String (String → Option Nat) :=
  contributorsRawAux (fun _ => none) cs

/-- The loop of `analyze_code_churn` over raw records: the subscript
`commit["file_changes"]` raises `KeyError` when that key is missing,
aborting the whole aggregation. -/
def churnRawAux (m : String → Option (Nat × Nat)) :
    List RawCommit → Except String (String → Option (Nat × Nat))
  | [] => Except.ok m
  | c :: t =>
    match c.file_changes with
    | none => Except.error "KeyError: file_changes"
    | some fcs => churnRawAux (fcs.foldl churnBump m) t

/-- `analyze_code_churn` over raw records. -/
def churnRaw (cs : List RawCommit) : Except String (String → Option (Nat × Nat)) :=
  churnRawAux (fun _ => none) cs

theorem contributorsRawAux_error (cs : List RawCommit) (c : RawCommit)
    (hc : c ∈ cs) (ha : c.author = none) (m : String → Option Nat) :
    ∃ e, contributorsRawAux m cs = Except.error e := by
  induction cs generalizing m with
  | nil => cases hc
  | cons d t ih =>
    rcases List.mem_cons.mp hc with h | h
    · subst h
      rw [contributorsRawAux, ha]
      exact ⟨"KeyError: author", rfl⟩
    · rw [contributorsRawAux]
      cases hda : d.author with
      | none => exact ⟨"KeyError: author", rfl⟩
      | some a => exact ih h _

theorem churnRawAux_error (cs : List RawCommit) (c : RawCommit)
    (hc : c ∈ cs) (hf : c.file_changes = none) (m : String → Option (Nat × Nat)) :
    ∃ e, churnRawAux m cs = Except.error e := by
  induction cs generalizing m with
  | nil => cases hc
  | cons d t ih =>
    rcases List.mem_cons.mp hc with h | h
    · subst h
      rw [churnRawAux, hf]
      exact ⟨"KeyError: file_changes", rfl⟩
    · rw [churnRawAux]
      cases hdf : d.file_changes with
      | none => exact ⟨"KeyError: file_changes", rfl⟩
      | some fcs => exact ih h _

/-- Sample author used by the concrete test scenarios. -/
def alice : Author := ⟨"Alice", "alice@example.com"⟩

/-- Second sample author. -/
def bob : Author := ⟨"Bob", "bob@example.com"⟩

/-- A commit on day 0, a Monday. -/
def cMon : Commit := ⟨"h1", alice, some 0, "initial work", []⟩

/-- A commit on day 21, three weeks later (also a Monday). -/
def cLater : Commit := ⟨"h2", bob, some 21, "more work", []⟩

/-- A commit whose date string did not parse (`errors="coerce"` gave
`NaT`), e.g. the string "not-a-date". -/
def cBadDate : Commit := ⟨"h3", alice, none, "oops", [⟨"X.java", 5, 2⟩]⟩

/-- A `"fix"`-message commit listing the same path twice. -/
def cFixDup : Commit := ⟨"h4", alice, some 3, "Fix bug", [⟨"X.java", 1, 0⟩, ⟨"X.java", 2, 1⟩]⟩

/-- A commit whose message does not contain `"fix"`. -/
def cNoFix : Commit := ⟨"h5", bob, some 4, "add feature", [⟨"Y.java", 7, 0⟩]⟩

/-- A `"fix"`-message commit with an empty `file_changes` list. -/
def cFixEmpty : Commit := ⟨"h6", alice, some 5, "hotfix", []⟩

/-- A raw record with all keys present. -/
def rawGood : RawCommit := ⟨some "r1", some alice, some (some 0), some "msg", some []⟩

/-- A raw record missing its `author` key. -/
def rawNoAuthor : RawCommit := ⟨some "r2", none, some (some 1), some "msg2", some []⟩

/-- A raw record missing both its `author` and its `file_changes` keys. -/
def rawBare : RawCommit := ⟨some "r3", none, some (some 2), some "msg3", none⟩

theorem beq_ext_int (a b c d : Int) (h : a = b ↔ c = d) : (a == b) = (c == d) := by
  cases hab : (a == b) with
  | true => exact (beq_iff_eq.mpr (h.mp (beq_iff_eq.mp hab))).symm
  | false =>
    cases hcd : (c == d) with
    | true =>
      have h2 : (a == b) = true := beq_iff_eq.mpr (h.mpr (beq_iff_eq.mp hcd))
      rw [h2] at hab
      cases hab
    | false => rfl

theorem changesOf_append (l1 l2 : List Commit) :
    changesOf (l1 ++ l2) = changesOf l1 ++ changesOf l2 := by
  induction l1 with
  | nil => rfl
  | cons c t ih => simp [changesOf, ih, List.append_assoc]

theorem changesOf_perm (cs cs2 : List Commit) (h : cs.Perm cs2) :
    (changesOf cs).Perm (changesOf cs2) := by
  induction h with
  | nil => exact List.Perm.refl _
  | cons x h ih => exact List.Perm.append_left x.file_changes ih
  | swap x y l =>
    show (changesOf (y :: x :: l)).Perm (changesOf (x :: y :: l))
    have h1 : changesOf (y :: x :: l) = (y.file_changes ++ x.file_changes) ++ changesOf l := by
      simp [changesOf, List.append_assoc]
    have h2 : changesOf (x :: y :: l) = (x.file_changes ++ y.file_changes) ++ changesOf l := by
      simp [changesOf, List.append_assoc]
    rw [h1, h2]
    exact List.Perm.append_right (changesOf l) List.perm_append_comm
  | trans h1 h2 ih1 ih2 => exact List.Perm.trans ih1 ih2

theorem touches_perm (l1 l2 : List FileChange) (p : String) (h : l1.Perm l2) :
    touches l1 p = touches l2 p := by
  unfold touches
  cases hb : l2.any (fun fc => fc.filename == p) with
  | true =>
    rcases List.any_eq_true.mp hb with ⟨fc, hfc, hfn⟩
    exact List.any_eq_true.mpr ⟨fc, h.mem_iff.mpr hfc, hfn⟩
  | false =>
    cases hb2 : l1.any (fun fc => fc.filename == p) with
    | true =>
      rcases List.any_eq_true.mp hb2 with ⟨fc, hfc, hfn⟩
      have h3 : l2.any (fun fc => fc.filename == p) = true :=
        List.any_eq_true.mpr ⟨fc, h.mem_iff.mp hfc, hfn⟩
      rw [h3] at hb
      cases hb
    | false => rfl

theorem addedTotal_perm (l1 l2 : List FileChange) (p : String) (h : l1.Perm l2) :
    addedTotal l1 p = addedTotal l2 p :=
  List.Perm.sum_eq (List.Perm.map (fun fc => fc.lines_added)
    (List.Perm.filter (fun fc => fc.filename == p) h))

theorem deletedTotal_perm (l1 l2 : List FileChange) (p : String) (h : l1.Perm l2) :
    deletedTotal l1 p = deletedTotal l2 p :=
  List.Perm.sum_eq (List.Perm.map (fun fc => fc.lines_deleted)
    (List.Perm.filter (fun fc => fc.filename == p) h))

/-- Pointwise combination of two churn dictionaries on one key: absent
merges with absent to absent, and two present values add componentwise
(the partition guarantee of the spec). -/
def combineChurn : Option (Nat × Nat) → Option (Nat × Nat) → Option (Nat × Nat)
  | none, none => none
  | some ad, none => some ad
  | none, some bd => some bd
  | some ad, some bd => some (ad.1 + bd.1, ad.2 + bd.2)

theorem bugTouched_append (l1 l2 : List Commit) (p : String) :
    bugTouched (l1 ++ l2) p = (bugTouched l1 p || bugTouched l2 p) := by
  simp [bugTouched, List.any_append]

theorem bugTotal_append (l1 l2 : List Commit) (p : String) :
    bugTotal (l1 ++ l2) p = bugTotal l1 p + bugTotal l2 p := by
  simp [bugTotal, List.map_append, List.sum_append]

theorem bugTotal_zero (cs : List Commit) (p : String)
    (h : bugTouched cs p = false) : bugTotal cs p = 0 := by
  induction cs with
  | nil => rfl
  | cons c t ih =>
    rw [bugTouched, List.any_cons] at h
    rcases Bool.or_eq_false_iff.mp h with ⟨h1, h2⟩
    have hfc : fixCount c p = 0 := by
      cases hcf : containsFix c.message with
      | false => simp [fixCount, hcf]
      | true =>
        rw [hcf, Bool.true_and] at h1
        simp [fixCount, hcf, entryCount_zero _ _ h1]
    have h3 := ih h2
    rw [bugTotal] at h3 ⊢
    simp [List.map_cons, List.sum_cons, hfc]
    simpa [bugTotal] using h3

theorem touches_of_entryCount_pos (fcs : List FileChange) (p : String)
    (h : 0 < entryCount fcs p) : touches fcs p = true := by
  cases hb : touches fcs p with
  | true => rfl
  | false =>
    rw [entryCount_zero fcs p hb] at h
    cases h

/-- C1 counterexample: for the two commits on days 0 and 21 (both
Mondays), the weekly mapping is `[(6,1),(13,0),(20,0),(27,1)]`; no key of
it is the ISO week start date of a week containing a commit (all keys are
Sundays, and keys 13 and 20 belong to weeks containing no commit at all),
refuting the claim's description of the key set at this input. -/
theorem C1_counterexample :
    bucketByWeek [cMon, cLater] = Except.ok [(6, 1), (13, 0), (20, 0), (27, 1)]
    ∧ ¬ (∀ p ∈ [((6 : Int), (1 : Nat)), (13, 0), (20, 0), (27, 1)],
          ∃ d ∈ validDates [cMon, cLater], weekStart d = p.1) := by
  constructor
  · rfl
  · decide

/-- C1 (amended): each commit with a parseable timestamp is bucketed into
the Monday-start calendar week containing it, but the key of a bucket is
the week END date (its Sunday, ≡ 6 mod 7), the count stored under key `k`
is the number of valid commits whose ISO week starts at `k - 6`, and the
week-end key of every valid commit is present (the key range also covers
intervening weeks with zero commits). -/
theorem C1_weekly_keys (cs : List Commit) (m : List (Int × Nat))
    (h : bucketByWeek cs = Except.ok m) :
    (∀ p ∈ m, p.1 % 7 = 6
      ∧ p.2 = (validDates cs).countP (fun d => weekStart d == p.1 - 6))
    ∧ (∀ d ∈ validDates cs, ∃ n, (weekEnd d, n) ∈ m) := by
  rw [bucketByWeek] at h
  split at h
  · cases h
  · have hm : weeklyOf (validDates cs) = m := by
      injection h
    subst hm
    cases hds : validDates cs with
    | nil => simp [weeklyOf]
    | cons d t =>
      constructor
      · intro p hp
        rw [weeklyOf] at hp
        rcases List.mem_map.mp hp with ⟨k, hk, rfl⟩
        have hmod : k % 7 = 6 := weekKeys_mod _ _ k (weekEnd_mod _) hk
        refine ⟨hmod, ?_⟩
        show (d :: t).countP (fun x => weekEnd x == k)
          = (d :: t).countP (fun x => weekStart x == k - 6)
        apply countP_ext
        intro x
        apply beq_ext_int
        unfold weekEnd weekStart
        omega
      · intro x hx
        rw [weeklyOf]
        refine ⟨(d :: t).countP (fun y => weekEnd y == weekEnd x), ?_⟩
        apply List.mem_map.mpr
        refine ⟨weekEnd x, ?_, rfl⟩
        apply mem_weekKeys
        · exact weekEnd_mod _
        · exact weekEnd_mod _
        · exact weekEnd_mono _ _ (listMin_le_all d t x hx)
        · exact weekEnd_mono _ _ (all_le_listMax d t x hx)

/-- C1 witness: the theorem applied to the concrete two-commit input, at
the first key of its weekly mapping. -/
theorem C1_weekly_keys_witness :
    (6 : Int) % 7 = 6
    ∧ (1 : Nat) = (validDates [cMon, cLater]).countP
        (fun d => weekStart d == (6 : Int) - 6) :=
  (C1_weekly_keys [cMon, cLater] [(6, 1), (13, 0), (20, 0), (27, 1)] rfl).1
    (6, 1) (by decide)

/-- C2: whenever the weekly-counts mapping is produced (the commit list is
non-empty), the sum of its values equals the number of input commits whose
timestamp parsed; unparseable-timestamp commits are dropped before
bucketing and counted by no week. -/
theorem C2_weekly_sum (cs : List Commit) (m : List (Int × Nat))
    (h : bucketByWeek cs = Except.ok m) :
    (m.map (fun p => p.2)).sum = cs.countP (fun c => c.date.isSome) := by
  rw [bucketByWeek] at h
  split at h
  · cases h
  · have hm : weeklyOf (validDates cs) = m := by
      injection h
    subst hm
    rw [weeklyOf_sum, validDates_length]

/-- C2 witness: concrete input with two valid dates and one unparseable
one; the four weekly counts sum to 2. -/
theorem C2_weekly_sum_witness :
    (([((6 : Int), (1 : Nat)), (13, 0), (20, 0), (27, 1)]).map (fun p => p.2)).sum
      = [cMon, cLater, cBadDate].countP (fun c => c.date.isSome) :=
  C2_weekly_sum [cMon, cLater, cBadDate] [(6, 1), (13, 0), (20, 0), (27, 1)] rfl

/-- C3: on the empty commit list, the churn, bug-mention and contributor
aggregations return the empty mapping, but the weekly bucketing raises
`KeyError: 'date'` (`pd.DataFrame([])` has no columns), contradicting the
claim that all four return empty mappings without error. -/
theorem C3_empty_input :
    bucketByWeek [] = Except.error "KeyError: date"
    ∧ computeChurn [] = (fun _ => none)
    ∧ computeBugMentions [] = (fun _ => none)
    ∧ computeContributors [] = (fun _ => none) :=
  ⟨rfl, rfl, rfl, rfl⟩

/-- C4: the churn dictionary maps each path to the componentwise sums of
`lines_added` and `lines_deleted` over all matching `file_changes` entries
(repeats, including repeats inside one commit, accumulate additively); as
a mapping it is invariant under any permutation of the commit list, and it
distributes over any partition of the list into two parts, combined
pointwise by `combineChurn`. -/
theorem C4_churn (cs cs2 l1 l2 : List Commit) (p : String) (hperm : cs.Perm cs2) :
    (computeChurn cs p =
      if touches (changesOf cs) p then
        some (addedTotal (changesOf cs) p, deletedTotal (changesOf cs) p)
      else none)
    ∧ computeChurn cs p = computeChurn cs2 p
    ∧ computeChurn (l1 ++ l2) p =
        combineChurn (computeChurn l1 p) (computeChurn l2 p) := by
  have hch := changesOf_perm cs cs2 hperm
  refine ⟨computeChurn_lookup cs p, ?_, ?_⟩
  · rw [computeChurn_lookup, computeChurn_lookup,
      touches_perm _ _ p hch, addedTotal_perm _ _ p hch, deletedTotal_perm _ _ p hch]
  · rw [computeChurn_lookup, computeChurn_lookup, computeChurn_lookup,
      changesOf_append, touches_append, addedTotal_append, deletedTotal_append]
    cases h1 : touches (changesOf l1) p with
    | true =>
      cases h2 : touches (changesOf l2) p with
      | true => simp [combineChurn]
      | false =>
        simp [combineChurn, addedTotal_zero _ _ h2, deletedTotal_zero _ _ h2]
    | false =>
      cases h2 : touches (changesOf l2) p with
      | true =>
        simp [combineChurn, addedTotal_zero _ _ h1, deletedTotal_zero _ _ h1]
      | false => simp [combineChurn]

/-- C4 witness: the theorem applied to a concrete two-commit list, its
swap, and the partition into its two singleton halves. -/
theorem C4_churn_witness :
    computeChurn [cFixDup, cNoFix] "X.java" = computeChurn [cNoFix, cFixDup] "X.java"
    ∧ computeChurn ([cFixDup] ++ [cNoFix]) "X.java" =
        combineChurn (computeChurn [cFixDup] "X.java") (computeChurn [cNoFix] "X.java") := by
  have h := C4_churn [cFixDup, cNoFix] [cNoFix, cFixDup] [cFixDup] [cNoFix] "X.java"
    (List.Perm.swap cNoFix cFixDup [])
  exact ⟨h.2.1, h.2.2⟩

/-- C5 counterexample: the single `"Fix bug"` commit `cFixDup` lists
`X.java` in two `file_changes` entries; the bug dictionary stores 2 for
`X.java`, while the number of `"fix"`-message commits touching `X.java`
is 1 — the code increments per entry, not per commit. -/
theorem C5_counterexample :
    computeBugMentions [cFixDup] "X.java" = some 2
    ∧ [cFixDup].countP
        (fun c => containsFix c.message && touches c.file_changes "X.java") = 1
    ∧ (some 2 : Option Nat) ≠ some 1 := by
  refine ⟨rfl, by decide, by decide⟩

/-- C5 (amended): the bug-mention dictionary stores, per path, one count
per matching `file_changes` entry of each commit whose message contains
`"fix"` case-insensitively (equal to the commit count only when no such
commit repeats a path); a list with no `"fix"`-message commit yields the
empty mapping, and a `"fix"`-message commit with an empty `file_changes`
list contributes nothing. -/
theorem C5_bug_mentions (cs : List Commit) (p : String) :
    (computeBugMentions cs p =
      if bugTouched cs p then some (bugTotal cs p) else none)
    ∧ ((∀ c ∈ cs, containsFix c.message = false) → computeBugMentions cs p = none)
    ∧ (∀ (l1 l2 : List Commit) (c : Commit), c.file_changes = [] →
        computeBugMentions (l1 ++ c :: l2) = computeBugMentions (l1 ++ l2)) := by
  refine ⟨computeBugMentions_lookup cs p, ?_, ?_⟩
  · intro hnofix
    rw [computeBugMentions_lookup]
    have hbt : bugTouched cs p = false := by
      apply List.any_eq_false.mpr
      intro c hc
      simp [hnofix c hc]
    rw [hbt]
    simp
  · intro l1 l2 c hempty
    unfold computeBugMentions
    rw [List.foldl_append, List.foldl_append, List.foldl_cons]
    have hstep : bugStep (l1.foldl bugStep (fun _ => none)) c
        = l1.foldl bugStep (fun _ => none) := by
      rw [bugStep, hempty]
      cases containsFix c.message <;> simp
    rw [hstep]

/-- C5 witness: the no-`"fix"`-commit clause at a concrete singleton list,
and the empty-`file_changes` clause at the `"hotfix"` commit with no file
changes. -/
theorem C5_bug_mentions_witness :
    computeBugMentions [cNoFix] "Y.java" = none
    ∧ computeBugMentions ([cNoFix] ++ cFixEmpty :: []) = computeBugMentions ([cNoFix] ++ []) := by
  have h := C5_bug_mentions [cNoFix] "Y.java"
  exact ⟨h.2.1 (by decide), h.2.2 [cNoFix] [] cFixEmpty rfl⟩

/-- C6 counterexample: with two incoming records carrying the same hash
and no existing records, the merge keeps both copies (it only filters
against `existing`), so the result is not `incoming` deduplicated by id. -/
theorem C6_counterexample :
    mergeSnapshots [] [cMon, cMon] = [cMon, cMon]
    ∧ specDedupById [cMon, cMon] = [cMon]
    ∧ ([cMon, cMon] : List Commit) ≠ [cMon] := by
  refine ⟨by decide, by decide, by decide⟩

/-- C6 (amended): the merge returns the incoming records whose id does not
occur in `existing` (original order) followed by `existing` unchanged;
hence `mergeSnapshots([], incoming)` is `incoming` verbatim — equal to
`incoming` deduplicated by id only when incoming's ids are already unique
— and `mergeSnapshots(existing, [])` is `existing`. -/
theorem C6_merge (ex inc : List Commit)
    (hnd : (inc.map (fun c => c.commit_hash)).Nodup) :
    mergeSnapshots ex inc =
      (inc.filter (fun c => !(ex.any (fun e => e.commit_hash == c.commit_hash)))) ++ ex
    ∧ mergeSnapshots [] inc = inc
    ∧ mergeSnapshots ex [] = ex
    ∧ mergeSnapshots [] inc = specDedupById inc := by
  have hid : mergeSnapshots [] inc = inc := by
    unfold mergeSnapshots
    simp
  refine ⟨rfl, hid, rfl, ?_⟩
  rw [hid]
  unfold specDedupById
  rw [specDedupAux_of_nodup [] inc (by intro c hc; simp) hnd]

/-- C6 witness: the amended theorem at a concrete distinct-id incoming
list. -/
theorem C6_merge_witness :
    mergeSnapshots [] [cMon, cLater] = [cMon, cLater]
    ∧ mergeSnapshots [] [cMon, cLater] = specDedupById [cMon, cLater] := by
  have h := C6_merge [cNoFix] [cMon, cLater] (by decide)
  exact ⟨h.2.1, h.2.2.2⟩

/-- C7 counterexample: a commit record missing its `author` key is not
skipped — `analyze_top_contributors` raises `KeyError` on the subscript
`commit["author"]`, aborting the whole aggregation instead of producing a
result over the remaining (well-formed) entry. -/
theorem C7_counterexample :
    contributorsRaw [rawGood, rawNoAuthor] = Except.error "KeyError: author" := rfl

/-- C7 (amended): a malformed commit entry is fatal to every aggregation
that touches the missing key — a record with no `author` key aborts the
contributor aggregation and a record with no `file_changes` key aborts the
churn aggregation with a `KeyError`; only unparseable timestamps are
silently dropped (and only by the weekly bucketing). -/
theorem C7_malformed_fatal (cs : List RawCommit) (c : RawCommit) (hc : c ∈ cs) :
    (c.author = none → ∃ e, contributorsRaw cs = Except.error e)
    ∧ (c.file_changes = none → ∃ e, churnRaw cs = Except.error e) :=
  ⟨fun ha => contributorsRawAux_error cs c hc ha _,
   fun hf => churnRawAux_error cs c hc hf _⟩

/-- C7 witness: the theorem applied to a list holding one well-formed
record and one record missing both `author` and `file_changes`. -/
theorem C7_malformed_fatal_witness :
    (∃ e, contributorsRaw [rawGood, rawBare] = Except.error e)
    ∧ (∃ e, churnRaw [rawGood, rawBare] = Except.error e) := by
  have h := C7_malformed_fatal [rawGood, rawBare] rawBare (by decide)
  exact ⟨h.1 rfl, h.2 rfl⟩

/-- C8: replacing a commit's unparseable timestamp by any valid one (or
vice versa) leaves the churn, bug-mention and contributor dictionaries
unchanged; the unparseable-timestamp commit contributes no date to the
weekly bucketing, whose result is exactly that of the list without it.
Timestamp validity gates only the weekly operation. -/
theorem C8_timestamp_gates_only_weekly (l1 l2 : List Commit) (c : Commit) (d : Int) :
    computeChurn (l1 ++ ({ c with date := none } : Commit) :: l2)
      = computeChurn (l1 ++ ({ c with date := some d } : Commit) :: l2)
    ∧ computeBugMentions (l1 ++ ({ c with date := none } : Commit) :: l2)
      = computeBugMentions (l1 ++ ({ c with date := some d } : Commit) :: l2)
    ∧ computeContributors (l1 ++ ({ c with date := none } : Commit) :: l2)
      = computeContributors (l1 ++ ({ c with date := some d } : Commit) :: l2)
    ∧ validDates (l1 ++ ({ c with date := none } : Commit) :: l2) = validDates (l1 ++ l2)
    ∧ bucketByWeek (l1 ++ ({ c with date := none } : Commit) :: l2)
      = Except.ok (weeklyOf (validDates (l1 ++ l2))) := by
  have hvd : validDates (l1 ++ ({ c with date := none } : Commit) :: l2)
      = validDates (l1 ++ l2) := by
    unfold validDates
    rw [List.filterMap_append, List.filterMap_append, List.filterMap_cons]
  refine ⟨?_, ?_, ?_, hvd, ?_⟩
  · unfold computeChurn
    rw [List.foldl_append, List.foldl_append]
    rfl
  · unfold computeBugMentions
    rw [List.foldl_append, List.foldl_append]
    rfl
  · unfold computeContributors
    rw [List.foldl_append, List.foldl_append]
    rfl
  · have hne : (l1 ++ ({ c with date := none } : Commit) :: l2).isEmpty = false := by
      cases l1 with
      | nil => rfl
      | cons x t => rfl
    rw [bucketByWeek, hne]
    simp [hvd]

/-- C9: the contributor dictionary is keyed by the author display name of
each commit (not the email) and stores the number of commits carrying that
name, one per commit regardless of its file changes; in particular two
commits by Alice (one of them with no parseable date and a non-empty
change list) count as 2. -/
theorem C9_contributors (cs : List Commit) (q : String) :
    (computeContributors cs q =
      if cs.any (fun c => c.author.name == q) then
        some (cs.countP (fun c => c.author.name == q))
      else none)
    ∧ computeContributors [cMon, cBadDate] "Alice" = some 2 :=
  ⟨computeContributors_lookup cs q, rfl⟩

/-- C10: a `"fix"`-message commit whose `file_changes` list names path `p`
in `n > 0` entries raises `p`'s bug count by exactly `n` — once per
`file_changes` entry, not once per distinct file touched. -/
theorem C10_bug_per_entry (cs : List Commit) (c : Commit) (p : String)
    (hfix : containsFix c.message = true) (hn : 0 < entryCount c.file_changes p) :
    computeBugMentions (cs ++ [c]) p
      = some ((computeBugMentions cs p).getD 0 + entryCount c.file_changes p) := by
  have htouch : touches c.file_changes p = true :=
    touches_of_entryCount_pos c.file_changes p hn
  have hbt1 : bugTouched [c] p = true := by
    simp [bugTouched, List.any_cons, hfix, htouch]
  have hfc : fixCount c p = entryCount c.file_changes p := by
    simp [fixCount, hfix]
  have htot1 : bugTotal [c] p = entryCount c.file_changes p := by
    simp [bugTotal, hfc]
  rw [computeBugMentions_lookup, computeBugMentions_lookup,
    bugTouched_append, bugTotal_append, hbt1, htot1]
  cases hb : bugTouched cs p with
  | true => simp
  | false => simp [bugTotal_zero cs p hb]

/-- C10 witness: the `"Fix bug"` commit listing `X.java` twice raises
`X.java`'s count from absent to 2 in one step. -/
theorem C10_bug_per_entry_witness :
    computeBugMentions ([] ++ [cFixDup]) "X.java"
      = some ((computeBugMentions [] "X.java").getD 0
          + entryCount cFixDup.file_changes "X.java") :=
  C10_bug_per_entry [] cFixDup "X.java" (by decide) (by decide)
